import Mathlib

/-
Verification development for `decompile_anims.py` (GothicAnimsDecompile).

The Python source is shallowly embedded below:
- Python dicts (which preserve insertion order; assignment to an existing key
  updates it in place, a new key is appended) are modelled as association
  lists with `lookupA` / `updA`.
- Python floats are modelled as rationals; `round(f, 4)` is modelled as
  nearest-integer rounding at four decimal places (`rf`).
- `itertools.combinations` is modelled by `combinations`, which enumerates
  subsequences of a given length in the same lexicographic-by-position order.
- Python's stable `sorted(..., key=...)` is modelled by a stable insertion
  sort on the `first_frame` key.
- A function that prints a diagnostic and returns early on a validation
  failure is modelled as returning a distinguished `aborted` value; an
  unhandled Python exception is modelled as the distinguished `crashed` value.
-/

set_option autoImplicit false

namespace GothicAnims

variable {α : Type} {β : Type}

/-- Lookup in an insertion-ordered association list (Python `d[k]` / `k in d`). -/
def lookupA [DecidableEq α] (k : α) : List (α × β) → Option β
  | [] => none
  | (k1, v1) :: rest => if k1 = k then some v1 else lookupA k rest

/-- Update in an insertion-ordered association list (Python `d[k] = v`):
an existing key keeps its position, a new key is appended at the end. -/
def updA [DecidableEq α] (k : α) (v : β) : List (α × β) → List (α × β)
  | [] => [(k, v)]
  | (k1, v1) :: rest => if k1 = k then (k, v) :: rest else (k1, v1) :: updA k v rest

theorem lookupA_updA_self [DecidableEq α] (k : α) (v : β) (l : List (α × β)) :
    lookupA k (updA k v l) = some v := by
  induction l with
  | nil => simp [lookupA, updA]
  | cons p rest ih =>
    obtain ⟨k1, v1⟩ := p
    by_cases h : k1 = k
    · simp [lookupA, updA, h]
    · simp [lookupA, updA, h, ih]

theorem lookupA_updA_ne [DecidableEq α] (k k2 : α) (v : β) (l : List (α × β))
    (h : k2 ≠ k) : lookupA k2 (updA k v l) = lookupA k2 l := by
  have h2 : k ≠ k2 := fun hk => h hk.symm
  induction l with
  | nil => simp [lookupA, updA, h2]
  | cons p rest ih =>
    obtain ⟨k1, v1⟩ := p
    by_cases h1 : k1 = k
    · subst h1
      simp [lookupA, updA, h2]
    · simp [lookupA, updA, h1, ih]

/-- One animation clip as declared by the model script (zenkit `AnimationEntry`):
only the fields read by `decompile_anims.py` are modelled. -/
structure Ani where
  name : String
  first_frame : Int
  last_frame : Int
  fps : ℚ
  speed : ℚ
deriving DecidableEq, Inhabited

/-- Stable insertion of a clip into a list sorted by `first_frame`
(the clip goes before the first element whose key is not smaller). -/
def insertByFirst (a : Ani) : List Ani → List Ani
  | [] => [a]
  | b :: l => if b.first_frame < a.first_frame then b :: insertByFirst a l else a :: b :: l

/-- Python `sorted(ranges, key=lambda x: x.first_frame)`: a stable sort
by `first_frame` (stability makes the output unique, so any stable sort
is extensionally Python's `sorted`). -/
def sortByFirst (l : List Ani) : List Ani := l.foldr insertByFirst []

/-- The adjacent-pair loop of `is_continuous_and_non_overlapping`:
fail on overlap (`curr.first_frame <= prev.last_frame`) or on a gap
(`curr.first_frame != prev.last_frame + 1`). -/
def checkPairs : List Ani → Bool
  | prev :: curr :: rest =>
    if curr.first_frame ≤ prev.last_frame then false
    else if curr.first_frame ≠ prev.last_frame + 1 then false
    else checkPairs (curr :: rest)
  | _ => true

/-- `is_continuous_and_non_overlapping(ranges)` from `decompile_anims.py`. -/
def is_continuous_and_non_overlapping (ranges : List Ani) : Bool :=
  checkPairs (sortByFirst ranges)

/-- `itertools.combinations(l, r)`: all length-`r` subsequences of `l`,
in lexicographic order of positions. -/
def combinations : Nat → List Ani → List (List Ani)
  | 0, _ => [[]]
  | _ + 1, [] => []
  | r + 1, x :: xs => (combinations r xs).map (fun c => x :: c) ++ combinations (r + 1) xs

/-- `a.last_frame - a.first_frame`, the frame span of a clip. -/
def span (a : Ani) : Int := a.last_frame - a.first_frame

/-- Python `max(a.last_frame - a.first_frame for a in anis)` (nonempty input). -/
def maxSpanOf : List Ani → Int
  | [] => 0
  | a :: rest => rest.foldl (fun m x => max m (span x)) (span a)

/-- Python `min(ani.first_frame for ani in anis)` (nonempty input). -/
def minFirst : List Ani → Int
  | [] => 0
  | a :: rest => rest.foldl (fun m x => min m x.first_frame) a.first_frame

/-- Python `max(ani.last_frame for ani in anis)` (nonempty input). -/
def maxLast : List Ani → Int
  | [] => 0
  | a :: rest => rest.foldl (fun m x => max m x.last_frame) a.last_frame

/-- The body of the combination search: keep `combo` when it is a contiguous
non-overlapping cover and strictly larger than the best so far. -/
def stepCombo (best combo : List Ani) : List Ani :=
  if is_continuous_and_non_overlapping combo = true ∧ best.length < combo.length then combo
  else best

/-- The double loop `for r in range(2, len(anis) + 1): for combo in
combinations(anis, r): ...` of `find_best_anis_combo`. -/
def searchLoop (anis : List Ani) : List Ani :=
  (List.range' 2 (anis.length - 1)).foldl
    (fun best r => (combinations r anis).foldl stepCombo best) []

/-- All combos the search enumerates, in enumeration order:
sizes ascending from 2, combinations within a size in input order. -/
def allCombos (anis : List Ani) : List (List Ani) :=
  (List.range' 2 (anis.length - 1)).flatMap (fun r => combinations r anis)

/-- The combos that pass the Range Analyzer, in enumeration order. -/
def passingCombos (anis : List Ani) : List (List Ani) :=
  (allCombos anis).filter is_continuous_and_non_overlapping

/-- The `largest frame span` fallback of `find_best_anis_combo`
(taken when no combination of size at least 2 passes). -/
def fallback_largest_span (anis : List Ani) : List Ani :=
  let max_span := maxSpanOf anis
  let best_combo := anis.filter (fun a => decide (span a = max_span))
  if 1 < best_combo.length then
    let notSpedUp := best_combo.filter (fun a => decide (a.fps = 25 ∧ a.speed = 0))
    if notSpedUp.isEmpty then [best_combo.headD default] else [notSpedUp.headD default]
  else best_combo

/-- The clip set held in `best_combo` just before the full-range-cover
check of `find_best_anis_combo`. -/
def chosenBeforeCover (anis : List Ani) : List Ani :=
  let best1 := searchLoop anis
  if best1.isEmpty then fallback_largest_span anis else best1

/-- `find_best_anis_combo(asc_name, anis)` from `decompile_anims.py`
(the `asc_name` argument and the diagnostic printing have no effect on the
returned value and are omitted). -/
def find_best_anis_combo (anis : List Ani) : List Ani :=
  if anis.length = 1 then anis
  else
    let best_combo := chosenBeforeCover anis
    if minFirst best_combo ≠ minFirst anis ∨ maxLast best_combo ≠ maxLast anis then anis
    else best_combo

/-- Floor of a rational as an integer (`num.fdiv den` is floor division). -/
def ratFloor (q : ℚ) : ℤ := Int.fdiv q.num q.den

/-- `rf(f)` from `decompile_anims.py`: `round(f, 4)`, modelled as
rounding to the nearest integer multiple of `1 / 10000` on rationals. -/
def rf (f : ℚ) : ℚ := mkRat (ratFloor (f * 10000 + mkRat 1 2)) 10000

/-- One raw sample of a clip stream: a position and an (x, y, z, w) rotation. -/
structure Sample where
  px : ℚ
  py : ℚ
  pz : ℚ
  rx : ℚ
  ry : ℚ
  rz : ℚ
  rw : ℚ
deriving DecidableEq, Inhabited

/-- A loaded `.MAN` clip sample stream (zenkit `ModelAnimation`):
only the fields read by `decompile_anims.py` are modelled. -/
structure ModelAnimation where
  checksum : Nat
  frame_count : Nat
  fps : ℚ
  fps_source : ℚ
  layer : Int
  node_indices : List Nat
  samples : List Sample
deriving DecidableEq, Inhabited

/-- One bone of a hierarchy record (`mdh_dict['nodes'][i]`). -/
structure Node where
  name : String
deriving DecidableEq, Inhabited

/-- A hierarchy record (`mdh_dict`): only the fields read by
`decompile_anims.py` are modelled. -/
structure MdhDict where
  checksum : Nat
  nodes : List Node
deriving DecidableEq, Inhabited

/-- A per-bone pair of track maps as built by `parse_man`: each maps a
flat sample index to a list of rounded components. -/
structure BoneTracks where
  translation : List (Nat × List ℚ)
  rotation : List (Nat × List ℚ)
deriving DecidableEq, Inhabited

/-- The `frames` dict of a decoded clip: bone name to its two track maps,
in insertion order. -/
abbrev Frames := List (String × BoneTracks)

/-- The dict returned by `parse_man` (its `source_script` entry is always
the empty dict). -/
structure AnimationData where
  checksum : Nat
  frame_count : Nat
  fps : ℚ
  fps_source : ℚ
  layer : Int
  source_script : List (String × String)
  frames : Frames
deriving DecidableEq, Inhabited

/-- `if bone_offset >= len(model_animation.node_indices): bone_offset = 0`,
the wrap-around normalisation at the top of the sample loop of `parse_man`. -/
def normOff (ma : ModelAnimation) (off : Nat) : Nat :=
  if ma.node_indices.length ≤ off then 0 else off

/-- `mdh_dict['nodes'][model_animation.node_indices[off1]]['name']`: the bone
name a (normalised) cycle offset resolves to.  Out-of-range list indexing
(a Python `IndexError`) is totalised with `List.getD`; theorems restrict to
in-bounds inputs. -/
def boneNameAt (ma : ModelAnimation) (mdh : MdhDict) (off1 : Nat) : String :=
  (mdh.nodes.getD (ma.node_indices.getD off1 0) default).name

/-- One iteration of the sample loop of `parse_man`: record the rounded
translation and rotation of sample `s` at flat index `i` under the bone the
current cycle offset resolves to. -/
def parseStep (ma : ModelAnimation) (mdh : MdhDict) (i off : Nat) (s : Sample)
    (frames : Frames) : Frames :=
  let bone_name := boneNameAt ma mdh (normOff ma off)
  let bt := (lookupA bone_name frames).getD default
  updA bone_name
    { translation := updA i [rf s.px, rf s.py, rf s.pz] bt.translation
      rotation := updA i [rf s.rx, rf s.ry, rf s.rz, rf s.rw] bt.rotation }
    frames

/-- The sample loop of `parse_man`: `i` is the running flat sample index
(`enumerate`), `off` the running `bone_offset`, `frames` the dict built
so far. -/
def parseLoop (ma : ModelAnimation) (mdh : MdhDict) :
    List Sample → Nat → Nat → Frames → Frames
  | [], _, _, frames => frames
  | s :: rest, i, off, frames =>
    parseLoop ma mdh rest (i + 1) (normOff ma off + 1) (parseStep ma mdh i off s frames)

/-- `parse_man(model_animation, mdh_dict)` from `decompile_anims.py`:
`none` models the `return None` on a checksum mismatch. -/
def parse_man (ma : ModelAnimation) (mdh : MdhDict) : Option AnimationData :=
  if ma.checksum ≠ mdh.checksum then none
  else
    some
      { checksum := ma.checksum
        frame_count := ma.frame_count
        fps := ma.fps
        fps_source := ma.fps_source
        layer := ma.layer
        source_script := []
        frames := parseLoop ma mdh ma.samples 0 0 [] }

/-- A per-bone pair of track maps as built by the merge loop of
`convert_anis`: because the loop iterates `for v in values` and assigns
each component to the same key, the merged maps hold single components. -/
structure BoneTracksM where
  translation : List (Nat × ℚ)
  rotation : List (Nat × ℚ)
deriving DecidableEq, Inhabited

/-- The merged `frames` dict of `man_data_merged['animation']`. -/
abbrev FramesM := List (String × BoneTracksM)

/-- `for v in values: merged[...][trackName][frame] = v`: every component
of `values` is assigned to the same key, so the key ends up holding the
last component. -/
def mergeValues (frame : Nat) (values : List ℚ) (m : List (Nat × ℚ)) : List (Nat × ℚ) :=
  values.foldl (fun acc v => updA frame v acc) m

/-- `for frame, values in trackFrames.items(): ...` of the merge loop. -/
def mergeTrack (m : List (Nat × ℚ)) (trackFrames : List (Nat × List ℚ)) : List (Nat × ℚ) :=
  trackFrames.foldl (fun acc fv => mergeValues fv.1 fv.2 acc) m

/-- The per-clip body of the merge loop of `convert_anis`: fold one decoded
`frames` dict into the merged dict (`translation` first, then `rotation`,
matching the items order of the per-bone dict built by `parse_man`). -/
def mergeClipFrames (merged : FramesM) (decoded : Frames) : FramesM :=
  decoded.foldl
    (fun mf bt =>
      let cur := (lookupA bt.1 mf).getD default
      let cur1 : BoneTracksM :=
        { translation := mergeTrack cur.translation bt.2.translation
          rotation := mergeTrack cur.rotation bt.2.rotation }
      updA bt.1 cur1 mf)
    merged

/-- The `for model_animation in model_animations:` merge loop of
`convert_anis` over a nonempty clip list: returns the merged `frames`
dict and the `man_data` of the last iteration (the value later written
to disk), or `none` when `parse_man` returns `None` and the subsequent
`man_data['frames']` access raises (modelling the uncaught `TypeError`). -/
def mergeLoopNE (mdh : MdhDict) :
    FramesM → ModelAnimation → List ModelAnimation → Option (FramesM × AnimationData)
  | acc, ma, [] =>
    match parse_man ma mdh with
    | none => none
    | some ad => some (mergeClipFrames acc ad.frames, ad)
  | acc, ma, m :: ms =>
    match parse_man ma mdh with
    | none => none
    | some ad => mergeLoopNE mdh (mergeClipFrames acc ad.frames) m ms

/-- The merged document `man_data_merged` built by `convert_anis`. -/
structure MergedAnimation where
  checksum : Nat
  frame_count : Nat
  fps : ℚ
  fps_source : ℚ
  layer : Int
  source_script : List (String × String)
  frames : FramesM
deriving DecidableEq, Inhabited

/-- `man_data_merged`: the hierarchy record together with the merged
animation. -/
structure MergedDoc where
  hierarchy : MdhDict
  animation : MergedAnimation
deriving DecidableEq, Inhabited

/-- Outcome of `convert_anis` for one source track: `aborted` models the
diagnostic-print-and-return validation failures, `crashed` models an
uncaught exception, and `ok` carries the merged document `man_data_merged`
together with the `man_data` value actually serialised to the output file. -/
inductive ConvOut where
  | aborted : ConvOut
  | crashed : ConvOut
  | ok : MergedDoc → AnimationData → ConvOut
deriving DecidableEq, Inhabited

/-- `len({ani.checksum for ani in model_animations}) == 1`: the loaded
streams are nonempty and all share one checksum. -/
def checksumsOK : List ModelAnimation → Bool
  | [] => false
  | m :: rest => rest.all (fun x => decide (x.checksum = m.checksum))

/-- `convert_anis` from `decompile_anims.py`, reduced to its data flow:
loading, path handling and the final Blender invocation are external
collaborators; the function's observable result is whether it aborted,
crashed, or produced the merged document plus the serialised `man_data`. -/
def convert_anis (mas : List ModelAnimation) (mdh_dict : List (Nat × MdhDict)) : ConvOut :=
  match mas with
  | [] => ConvOut.aborted
  | m0 :: rest =>
    if checksumsOK (m0 :: rest) = true then
      match lookupA m0.checksum mdh_dict with
      | none => ConvOut.aborted
      | some mdh =>
        let lastMA := List.getLast (m0 :: rest) (List.cons_ne_nil m0 rest)
        match mergeLoopNE mdh [] m0 rest with
        | none => ConvOut.crashed
        | some (framesM, lastData) =>
          ConvOut.ok
            { hierarchy := mdh
              animation :=
                { checksum := m0.checksum
                  frame_count := lastMA.frame_count
                  fps := lastMA.fps
                  fps_source := lastMA.fps_source
                  layer := lastMA.layer
                  source_script := []
                  frames := framesM } }
            lastData
    else ConvOut.aborted

/-- The merged `frames` dict of a successful `convert_anis` run. -/
def ConvOut.mergedFrames : ConvOut → Option FramesM
  | ConvOut.ok doc _ => some doc.animation.frames
  | _ => none

/-- The merged header of a successful `convert_anis` run. -/
def ConvOut.mergedAnimation : ConvOut → Option MergedAnimation
  | ConvOut.ok doc _ => some doc.animation
  | _ => none

/-- The document serialised to disk by a successful `convert_anis` run. -/
def ConvOut.savedData : ConvOut → Option AnimationData
  | ConvOut.ok _ saved => some saved
  | _ => none

/-- The `mdh_by_checksum` index built by `convert` from the hierarchy
records: `mdh_by_checksum[mdh_dict['checksum']] = mdh_dict`. -/
def buildMdhIndex (mdhs : List MdhDict) : List (Nat × MdhDict) :=
  mdhs.foldl (fun m d => updA d.checksum d m) []

/-- The per-source-track loop of `convert`: each track's clip streams are
handed to `convert_anis` in sequence. -/
def processTracks (mdh_dict : List (Nat × MdhDict)) (tracks : List (List ModelAnimation)) :
    List ConvOut :=
  tracks.map (fun mas => convert_anis mas mdh_dict)

/-! ### Range Analyzer: characterisation of the pairwise loop -/

theorem checkPairs_iff :
    ∀ l : List Ani, checkPairs l = true ↔
      List.Chain' (fun prev curr => curr.first_frame = prev.last_frame + 1) l
  | [] => by simp [checkPairs]
  | [_] => by simp [checkPairs]
  | a :: b :: l => by
    have ih := checkPairs_iff (b :: l)
    rw [List.chain'_cons]
    by_cases h : b.first_frame = a.last_frame + 1
    · have hle : ¬ b.first_frame ≤ a.last_frame := by omega
      simp [checkPairs, hle, h, ih]
    · by_cases hle : b.first_frame ≤ a.last_frame
      · simp [checkPairs, hle, h]
      · simp [checkPairs, hle, h]

/-! ### Combination search: the strict-improvement fold keeps the first
largest passing combination -/

theorem foldl_stepCombo_init_le (L : List (List Ani)) (b : List Ani) :
    b.length ≤ (L.foldl stepCombo b).length := by
  induction L generalizing b with
  | nil => exact le_refl _
  | cons c L ih =>
    rw [List.foldl_cons]
    refine le_trans ?_ (ih (stepCombo b c))
    unfold stepCombo
    split
    · next h => exact le_of_lt h.2
    · exact le_refl _

theorem foldl_stepCombo_mem_or (L : List (List Ani)) (b : List Ani) :
    L.foldl stepCombo b = b ∨
      L.foldl stepCombo b ∈ L.filter is_continuous_and_non_overlapping := by
  induction L generalizing b with
  | nil => exact Or.inl rfl
  | cons c L ih =>
    rw [List.foldl_cons]
    rcases ih (stepCombo b c) with h | h
    · rw [h]
      unfold stepCombo
      split
      · next hc =>
        exact Or.inr (List.mem_filter.mpr ⟨List.mem_cons_self c L, hc.1⟩)
      · exact Or.inl rfl
    · refine Or.inr (List.mem_filter.mpr ?_)
      have h1 := List.mem_filter.mp h
      exact ⟨List.mem_cons_of_mem c h1.1, h1.2⟩

theorem foldl_stepCombo_dom (L : List (List Ani)) (b : List Ani) :
    ∀ c ∈ L.filter is_continuous_and_non_overlapping,
      c.length ≤ (L.foldl stepCombo b).length := by
  induction L generalizing b with
  | nil => simp
  | cons d L ih =>
    intro c hc
    rw [List.foldl_cons]
    rw [List.mem_filter] at hc
    rcases List.mem_cons.mp hc.1 with h | h
    · subst h
      refine le_trans ?_ (foldl_stepCombo_init_le L (stepCombo b c))
      unfold stepCombo
      split
      · exact le_refl _
      · next hn =>
        have hnl : ¬ b.length < c.length := fun hlt => hn ⟨hc.2, hlt⟩
        omega
    · exact ih (stepCombo b d) c (List.mem_filter.mpr ⟨h, hc.2⟩)

theorem foldl_stepCombo_nochange (L : List (List Ani)) (b : List Ani)
    (h : ∀ c ∈ L.filter is_continuous_and_non_overlapping, c.length ≤ b.length) :
    L.foldl stepCombo b = b := by
  induction L generalizing b with
  | nil => rfl
  | cons c L ih =>
    rw [List.foldl_cons]
    have hstep : stepCombo b c = b := by
      unfold stepCombo
      split
      · next hcc =>
        exfalso
        have hm : c ∈ (c :: L).filter is_continuous_and_non_overlapping :=
          List.mem_filter.mpr ⟨List.mem_cons_self c L, hcc.1⟩
        have := h c hm
        omega
      · rfl
    rw [hstep]
    refine ih b (fun d hd => h d ?_)
    have h1 := List.mem_filter.mp hd
    exact List.mem_filter.mpr ⟨List.mem_cons_of_mem c h1.1, h1.2⟩

theorem foldl_stepCombo_find (L : List (List Ani)) (b : List Ani)
    (h : ∃ c ∈ L.filter is_continuous_and_non_overlapping, b.length < c.length) :
    (L.filter is_continuous_and_non_overlapping).find?
        (fun c => decide ((L.foldl stepCombo b).length ≤ c.length))
      = some (L.foldl stepCombo b) := by
  induction L generalizing b with
  | nil =>
    obtain ⟨c, hc, _⟩ := h
    simp at hc
  | cons c L ih =>
    rw [List.foldl_cons]
    by_cases hP : is_continuous_and_non_overlapping c = true
    · by_cases hlen : b.length < c.length
      · have hstep : stepCombo b c = c := if_pos ⟨hP, hlen⟩
        rw [hstep, List.filter_cons_of_pos hP]
        by_cases hr : (L.foldl stepCombo c).length ≤ c.length
        · have hrc : L.foldl stepCombo c = c := by
            refine foldl_stepCombo_nochange L c (fun d hd => ?_)
            exact le_trans (foldl_stepCombo_dom L c d hd) hr
          rw [hrc]
          rw [List.find?_cons_of_pos]
          simp
        · rw [List.find?_cons_of_neg]
          · refine ih c ?_
            have hmem : L.foldl stepCombo c ∈
                L.filter is_continuous_and_non_overlapping :=
              (foldl_stepCombo_mem_or L c).resolve_left
                (fun he => hr (by rw [he]))
            exact ⟨L.foldl stepCombo c, hmem, lt_of_not_le hr⟩
          · simpa using hr
      · have hstep : stepCombo b c = b := if_neg (fun hh => hlen hh.2)
        rw [hstep, List.filter_cons_of_pos hP]
        obtain ⟨d, hd, hdl⟩ := h
        rw [List.mem_filter] at hd
        rcases List.mem_cons.mp hd.1 with he | he
        · exfalso
          subst he
          omega
        · have hd1 : d ∈ L.filter is_continuous_and_non_overlapping :=
            List.mem_filter.mpr ⟨he, hd.2⟩
          rw [List.find?_cons_of_neg]
          · exact ih b ⟨d, hd1, hdl⟩
          · have h1 : d.length ≤ (L.foldl stepCombo b).length :=
              foldl_stepCombo_dom L b d hd1
            simp only [decide_eq_true_eq]
            omega
    · have hstep : stepCombo b c = b := if_neg (fun hh => hP hh.1)
      rw [hstep, List.filter_cons_of_neg hP]
      refine ih b ?_
      obtain ⟨d, hd, hdl⟩ := h
      rw [List.mem_filter] at hd
      rcases List.mem_cons.mp hd.1 with he | he
      · exact absurd (he ▸ hd.2) hP
      · exact ⟨d, List.mem_filter.mpr ⟨he, hd.2⟩, hdl⟩

theorem searchLoop_eq_foldl (anis : List Ani) :
    searchLoop anis = (allCombos anis).foldl stepCombo [] := by
  suffices haux : ∀ (rs : List Nat) (b : List Ani),
      rs.foldl (fun best r => (combinations r anis).foldl stepCombo best) b
        = (rs.flatMap (fun r => combinations r anis)).foldl stepCombo b by
    exact haux (List.range' 2 (anis.length - 1)) []
  intro rs
  induction rs with
  | nil => intro b; rfl
  | cons r rs ih =>
    intro b
    rw [List.foldl_cons, List.flatMap_cons, List.foldl_append]
    exact ih _

theorem combinations_length :
    ∀ (r : Nat) (l : List Ani) (c : List Ani), c ∈ combinations r l → c.length = r
  | 0, _, c, h => by
    simp [combinations] at h
    simp [h]
  | _ + 1, [], c, h => by simp [combinations] at h
  | r + 1, x :: xs, c, h => by
    rw [combinations] at h
    rcases List.mem_append.mp h with h1 | h1
    · obtain ⟨d, hd, rfl⟩ := List.mem_map.mp h1
      simp [combinations_length r xs d hd]
    · exact combinations_length (r + 1) xs c h1

theorem passingCombos_two_le (anis : List Ani) (c : List Ani)
    (hc : c ∈ passingCombos anis) : 2 ≤ c.length := by
  unfold passingCombos allCombos at hc
  rw [List.mem_filter] at hc
  obtain ⟨r, hr, hcr⟩ := List.mem_flatMap.mp hc.1
  have h1 := combinations_length r anis c hcr
  have h2 : 2 ≤ r := by
    have := List.mem_range'_1.mp hr
    omega
  omega

/-! ### Largest-span fallback: foldl-max lemmas -/

theorem foldlMaxSpan_init_le :
    ∀ (l : List Ani) (b : Int), b ≤ l.foldl (fun m x => max m (span x)) b
  | [], _ => le_refl _
  | x :: l, b =>
    le_trans (le_max_left b (span x)) (foldlMaxSpan_init_le l (max b (span x)))

theorem foldlMaxSpan_mem_le :
    ∀ (l : List Ani) (b : Int) (a : Ani), a ∈ l →
      span a ≤ l.foldl (fun m x => max m (span x)) b
  | x :: l, b, a, h => by
    rw [List.foldl_cons]
    rcases List.mem_cons.mp h with h1 | h1
    · subst h1
      exact le_trans (le_max_right b (span a)) (foldlMaxSpan_init_le l _)
    · exact foldlMaxSpan_mem_le l (max b (span x)) a h1

theorem foldlMaxSpan_eq_init_or_mem :
    ∀ (l : List Ani) (b : Int),
      l.foldl (fun m x => max m (span x)) b = b ∨
        ∃ a ∈ l, l.foldl (fun m x => max m (span x)) b = span a
  | [], b => Or.inl rfl
  | x :: l, b => by
    rw [List.foldl_cons]
    rcases foldlMaxSpan_eq_init_or_mem l (max b (span x)) with h | ⟨a, ha, h⟩
    · rcases max_choice b (span x) with h1 | h1
      · exact Or.inl (h.trans h1)
      · exact Or.inr ⟨x, List.mem_cons_self x l, h.trans h1⟩
    · exact Or.inr ⟨a, List.mem_cons_of_mem x ha, h⟩

theorem maxSpanOf_ge (anis : List Ani) : ∀ a ∈ anis, span a ≤ maxSpanOf anis := by
  intro a ha
  cases anis with
  | nil => cases ha
  | cons a0 rest =>
    unfold maxSpanOf
    rcases List.mem_cons.mp ha with h | h
    · subst h
      exact foldlMaxSpan_init_le rest (span a)
    · exact foldlMaxSpan_mem_le rest (span a0) a h

theorem maxSpanOf_achieved (anis : List Ani) (h : anis ≠ []) :
    ∃ a ∈ anis, span a = maxSpanOf anis := by
  cases anis with
  | nil => exact absurd rfl h
  | cons a0 rest =>
    unfold maxSpanOf
    rcases foldlMaxSpan_eq_init_or_mem rest (span a0) with h1 | ⟨a, ha, h1⟩
    · exact ⟨a0, List.mem_cons_self a0 rest, h1.symm⟩
    · exact ⟨a, List.mem_cons_of_mem a0 ha, h1.symm⟩

/-! ### Claim theorems for the Range Analyzer and the Combination Selector -/

/-- Claim C7: `is_continuous_and_non_overlapping` returns `true` exactly when,
after sorting the clips by `first_frame`, every adjacent pair `(prev, curr)`
satisfies `curr.first_frame = prev.last_frame + 1` (no overlap, no gap), and
any single-clip input returns `true`.  The operation is a pure function of its
argument, so it has no side effects. -/
theorem c7_range_analyzer (ranges : List Ani) :
    (is_continuous_and_non_overlapping ranges = true ↔
      List.Chain' (fun prev curr => curr.first_frame = prev.last_frame + 1)
        (sortByFirst ranges)) ∧
    ∀ a : Ani, is_continuous_and_non_overlapping [a] = true :=
  ⟨checkPairs_iff (sortByFirst ranges), fun _ => rfl⟩

/-- Claim C4: when at least one subset of size at least 2 passes the Range
Analyzer, the subset held just before the full-range-cover check is a passing
combination of maximum cardinality, and it is the first combination of that
cardinality in enumeration order (subset sizes ascending from 2, combinations
within one size in the input's original relative order, which is exactly the
order of `passingCombos`). -/
theorem c4_best_combination (anis : List Ani) (_h2 : 2 ≤ anis.length)
    (hp : passingCombos anis ≠ []) :
    searchLoop anis ∈ passingCombos anis ∧
    (∀ c ∈ passingCombos anis, c.length ≤ (searchLoop anis).length) ∧
    (passingCombos anis).find?
        (fun c => decide ((searchLoop anis).length ≤ c.length))
      = some (searchLoop anis) ∧
    chosenBeforeCover anis = searchLoop anis := by
  obtain ⟨c, hc⟩ := List.exists_mem_of_ne_nil _ hp
  have hc2 := passingCombos_two_le anis c hc
  have hpass : passingCombos anis
      = (allCombos anis).filter is_continuous_and_non_overlapping := rfl
  have hwit : ∃ d ∈ (allCombos anis).filter is_continuous_and_non_overlapping,
      ([] : List Ani).length < d.length := by
    refine ⟨c, hpass ▸ hc, ?_⟩
    simp only [List.length_nil]
    omega
  have hfind := foldl_stepCombo_find (allCombos anis) [] hwit
  have hdom := foldl_stepCombo_dom (allCombos anis) []
  have hmem : searchLoop anis ∈ passingCombos anis := by
    rw [hpass, searchLoop_eq_foldl]
    refine (foldl_stepCombo_mem_or (allCombos anis) []).resolve_left (fun he => ?_)
    obtain ⟨d, hd, hdl⟩ := hwit
    have := hdom d hd
    rw [he] at this
    simp only [List.length_nil] at this hdl
    omega
  refine ⟨hmem, ?_, ?_, ?_⟩
  · intro d hd
    rw [searchLoop_eq_foldl]
    exact hdom d (hpass ▸ hd)
  · rw [hpass, searchLoop_eq_foldl]
    exact hfind
  · have hne : searchLoop anis ≠ [] := by
      intro he
      have := passingCombos_two_le anis _ hmem
      rw [he] at this
      simp at this
    unfold chosenBeforeCover
    cases hsl : searchLoop anis with
    | nil => exact absurd hsl hne
    | cons x xs => simp

/-- Claim C5: when no subset of size at least 2 passes the Range Analyzer,
the fallback keeps exactly one clip: one maximising `last_frame - first_frame`;
among the tied clips, the first (in input order) with `fps = 25` and
`speed = 0` is kept, and when no tied clip passes that filter, the first tied
clip in input order is kept. -/
theorem c5_largest_span_fallback (anis : List Ani) (h2 : 2 ≤ anis.length)
    (hno : passingCombos anis = []) :
    ∃ c : Ani,
      chosenBeforeCover anis = [c] ∧ c ∈ anis ∧
      (∀ a ∈ anis, span a ≤ span c) ∧
      ((anis.filter (fun a => decide (span a = maxSpanOf anis))).filter
          (fun a => decide (a.fps = 25 ∧ a.speed = 0)) = [] →
        (anis.filter (fun a => decide (span a = maxSpanOf anis))).head? = some c) ∧
      (∀ (c0 : Ani) (l : List Ani),
        (anis.filter (fun a => decide (span a = maxSpanOf anis))).filter
            (fun a => decide (a.fps = 25 ∧ a.speed = 0)) = c0 :: l → c = c0) := by
  have hne : anis ≠ [] := by
    cases anis with
    | nil => simp at h2
    | cons a l => exact List.cons_ne_nil a l
  have hsl : searchLoop anis = [] := by
    rw [searchLoop_eq_foldl]
    refine foldl_stepCombo_nochange (allCombos anis) [] (fun d hd => ?_)
    have : d ∈ passingCombos anis := hd
    rw [hno] at this
    cases this
  have hcb : chosenBeforeCover anis = fallback_largest_span anis := by
    unfold chosenBeforeCover
    rw [hsl]
    rfl
  obtain ⟨aw, haw, hawspan⟩ := maxSpanOf_achieved anis hne
  have htne : anis.filter (fun a => decide (span a = maxSpanOf anis)) ≠ [] := by
    intro he
    have : aw ∈ anis.filter (fun a => decide (span a = maxSpanOf anis)) :=
      List.mem_filter.mpr ⟨haw, by simp [hawspan]⟩
    rw [he] at this
    cases this
  have hspan_of_mem : ∀ c ∈ anis.filter (fun a => decide (span a = maxSpanOf anis)),
      c ∈ anis ∧ (∀ a ∈ anis, span a ≤ span c) := by
    intro c hc
    have h1 := List.mem_filter.mp hc
    have h2 : span c = maxSpanOf anis := by simpa using h1.2
    exact ⟨h1.1, fun a ha => h2 ▸ maxSpanOf_ge anis a ha⟩
  rw [hcb]
  unfold fallback_largest_span
  cases htied : anis.filter (fun a => decide (span a = maxSpanOf anis)) with
  | nil => exact absurd htied htne
  | cons t0 ts =>
    by_cases hlen : 1 < (t0 :: ts).length
    · cases hnsu : (t0 :: ts).filter (fun a => decide (a.fps = 25 ∧ a.speed = 0)) with
      | nil =>
        refine ⟨t0, ?_, ?_, ?_, ?_, ?_⟩
        · simp only [htied, hlen, if_pos, hnsu]
          rfl
        · exact (hspan_of_mem t0 (htied ▸ List.mem_cons_self t0 ts)).1
        · exact (hspan_of_mem t0 (htied ▸ List.mem_cons_self t0 ts)).2
        · intro _
          rfl
        · intro c0 l hh
          simp at hh
      | cons n0 nl =>
        have hn0 : n0 ∈ t0 :: ts := List.mem_of_mem_filter (hnsu ▸ List.mem_cons_self n0 nl)
        refine ⟨n0, ?_, ?_, ?_, ?_, ?_⟩
        · simp only [htied, hlen, if_pos, hnsu]
          rfl
        · exact (hspan_of_mem n0 (htied ▸ hn0)).1
        · exact (hspan_of_mem n0 (htied ▸ hn0)).2
        · intro hcontra
          simp at hcontra
        · intro c0 l hh
          injection hh
    · have hts : ts = [] := by
        simp only [List.length_cons] at hlen
        have : ts.length = 0 := by omega
        exact List.length_eq_zero.mp this
      subst hts
      refine ⟨t0, ?_, ?_, ?_, ?_, ?_⟩
      · simp only [htied, hlen]
        rfl
      · exact (hspan_of_mem t0 (htied ▸ List.mem_cons_self t0 [])).1
      · exact (hspan_of_mem t0 (htied ▸ List.mem_cons_self t0 [])).2
      · intro _
        rfl
      · intro c0 l hh
        rcases List.mem_cons.mp
            (List.mem_of_mem_filter (hh ▸ List.mem_cons_self c0 l)) with h1 | h1
        · exact h1.symm
        · cases h1

/-- Claim C6: when the selection produced by the search or the fallback does
not span the full observed frame range of the input, `find_best_anis_combo`
returns the complete input clip list. -/
theorem c6_no_full_cover (anis : List Ani) (h2 : 2 ≤ anis.length)
    (hdiff : minFirst (chosenBeforeCover anis) ≠ minFirst anis ∨
      maxLast (chosenBeforeCover anis) ≠ maxLast anis) :
    find_best_anis_combo anis = anis := by
  unfold find_best_anis_combo
  have h1 : ¬ anis.length = 1 := by omega
  rw [if_neg h1, if_pos hdiff]


/-! ### Sample Decoder: what `parse_man` records for each flat sample index -/

theorem default_BoneTracks_translation : (default : BoneTracks).translation = [] := rfl

theorem default_BoneTracks_rotation : (default : BoneTracks).rotation = [] := rfl

/-- The pair of track values a decoded `frames` dict holds for bone `bn`
at flat sample index `i` (translation, rotation). -/
def trackVal (frames : Frames) (bn : String) (i : Nat) :
    Option (List ℚ) × Option (List ℚ) :=
  ((lookupA bn frames).bind (fun bt => lookupA i bt.translation),
   (lookupA bn frames).bind (fun bt => lookupA i bt.rotation))

theorem normOff_lt (ma : ModelAnimation) (off : Nat) (hL : ma.node_indices ≠ []) :
    normOff ma off < ma.node_indices.length := by
  have h0 : 0 < ma.node_indices.length := List.length_pos.mpr hL
  unfold normOff
  split
  · exact h0
  · next h => omega

theorem normOff_zero (ma : ModelAnimation) : normOff ma 0 = 0 := by
  unfold normOff
  split <;> rfl

theorem normOff_succ_mod (ma : ModelAnimation) (off : Nat) (hL : ma.node_indices ≠ []) :
    normOff ma (normOff ma off + 1) = (normOff ma off + 1) % ma.node_indices.length := by
  have h1 := normOff_lt ma off hL
  set m := normOff ma off with hm
  unfold normOff
  by_cases h : ma.node_indices.length ≤ m + 1
  · rw [if_pos h]
    have he : m + 1 = ma.node_indices.length := by omega
    rw [he, Nat.mod_self]
  · rw [if_neg h]
    rw [Nat.mod_eq_of_lt (by omega)]

theorem parseStep_trackVal_self (ma : ModelAnimation) (mdh : MdhDict)
    (i off : Nat) (s : Sample) (frames : Frames) :
    trackVal (parseStep ma mdh i off s frames) (boneNameAt ma mdh (normOff ma off)) i
      = (some [rf s.px, rf s.py, rf s.pz],
         some [rf s.rx, rf s.ry, rf s.rz, rf s.rw]) := by
  unfold trackVal parseStep
  simp only [lookupA_updA_self, Option.some_bind]

theorem parseStep_trackVal_ne (ma : ModelAnimation) (mdh : MdhDict)
    (i off : Nat) (s : Sample) (frames : Frames) (bn : String) (k : Nat) (hk : k ≠ i) :
    trackVal (parseStep ma mdh i off s frames) bn k = trackVal frames bn k := by
  by_cases hbn : bn = boneNameAt ma mdh (normOff ma off)
  · subst hbn
    unfold trackVal parseStep
    simp only [lookupA_updA_self, Option.some_bind]
    rw [lookupA_updA_ne _ _ _ _ hk, lookupA_updA_ne _ _ _ _ hk]
    cases hlk : lookupA (boneNameAt ma mdh (normOff ma off)) frames with
    | none =>
      simp [hlk, default_BoneTracks_translation, default_BoneTracks_rotation, lookupA]
    | some bt0 => simp [hlk]
  · unfold trackVal parseStep
    rw [lookupA_updA_ne _ _ _ _ hbn]

theorem parseLoop_preserve (ma : ModelAnimation) (mdh : MdhDict) :
    ∀ (ss : List Sample) (i0 off : Nat) (frames : Frames) (bn : String) (k : Nat),
      k < i0 →
      trackVal (parseLoop ma mdh ss i0 off frames) bn k = trackVal frames bn k
  | [], _, _, _, _, _, _ => rfl
  | s :: rest, i0, off, frames, bn, k, hk => by
    rw [parseLoop]
    rw [parseLoop_preserve ma mdh rest (i0 + 1) (normOff ma off + 1)
      (parseStep ma mdh i0 off s frames) bn k (by omega)]
    exact parseStep_trackVal_ne ma mdh i0 off s frames bn k (by omega)

theorem parseLoop_getD (ma : ModelAnimation) (mdh : MdhDict)
    (hL : ma.node_indices ≠ []) :
    ∀ (ss : List Sample) (i0 off : Nat) (frames : Frames) (j : Nat), j < ss.length →
      trackVal (parseLoop ma mdh ss i0 off frames)
          (boneNameAt ma mdh ((normOff ma off + j) % ma.node_indices.length)) (i0 + j)
        = (some [rf (ss.getD j default).px, rf (ss.getD j default).py,
             rf (ss.getD j default).pz],
           some [rf (ss.getD j default).rx, rf (ss.getD j default).ry,
             rf (ss.getD j default).rz, rf (ss.getD j default).rw])
  | [], _, _, _, j, hj => by simp at hj
  | s :: rest, i0, off, frames, 0, _ => by
    rw [parseLoop]
    simp only [Nat.add_zero, List.getD_cons_zero]
    rw [Nat.mod_eq_of_lt (normOff_lt ma off hL)]
    rw [parseLoop_preserve ma mdh rest (i0 + 1) (normOff ma off + 1)
      (parseStep ma mdh i0 off s frames) _ i0 (by omega)]
    exact parseStep_trackVal_self ma mdh i0 off s frames
  | s :: rest, i0, off, frames, j + 1, hj => by
    rw [parseLoop]
    have ih := parseLoop_getD ma mdh hL rest (i0 + 1) (normOff ma off + 1)
      (parseStep ma mdh i0 off s frames) j (by simpa using Nat.lt_of_succ_lt_succ hj)
    have hmod : (normOff ma (normOff ma off + 1) + j) % ma.node_indices.length
        = (normOff ma off + (j + 1)) % ma.node_indices.length := by
      rw [normOff_succ_mod ma off hL, Nat.mod_add_mod]
      congr 1
      omega
    rw [hmod] at ih
    have hidx : i0 + 1 + j = i0 + (j + 1) := by omega
    rw [hidx] at ih
    simpa using ih

/-- Claim C8: for a clip stream whose checksum matches the skeleton and whose
bone-index cycle is non-empty, `parse_man` succeeds and records, for every
flat sample index `i`, the per-component-rounded translation and rotation of
sample `i` under the bone named
`nodes[node_indices[i % len(node_indices)]].name`, keyed by the clip-local
flat index `i` itself (`parse_man` never sees the clip's `first_frame`, so
keys are not rebased by it). -/
theorem c8_decoder (ma : ModelAnimation) (mdh : MdhDict)
    (hck : ma.checksum = mdh.checksum)
    (hcycle : ma.node_indices ≠ [])
    (_hbound : ∀ n ∈ ma.node_indices, n < mdh.nodes.length)
    (i : Nat) (hi : i < ma.samples.length) :
    ∃ ad : AnimationData, parse_man ma mdh = some ad ∧
      ∃ bt : BoneTracks,
        lookupA (boneNameAt ma mdh (i % ma.node_indices.length)) ad.frames = some bt ∧
        lookupA i bt.translation =
          some [rf (ma.samples.getD i default).px, rf (ma.samples.getD i default).py,
            rf (ma.samples.getD i default).pz] ∧
        lookupA i bt.rotation =
          some [rf (ma.samples.getD i default).rx, rf (ma.samples.getD i default).ry,
            rf (ma.samples.getD i default).rz, rf (ma.samples.getD i default).rw] := by
  have hgetD := parseLoop_getD ma mdh hcycle ma.samples 0 0 [] i hi
  rw [normOff_zero, Nat.zero_add] at hgetD
  have hpm : parse_man ma mdh = some
      { checksum := ma.checksum, frame_count := ma.frame_count, fps := ma.fps,
        fps_source := ma.fps_source, layer := ma.layer, source_script := [],
        frames := parseLoop ma mdh ma.samples 0 0 [] } := by
    unfold parse_man
    rw [if_neg (by omega)]
  refine ⟨_, hpm, ?_⟩
  unfold trackVal at hgetD
  cases hlk : lookupA (boneNameAt ma mdh (i % ma.node_indices.length))
      (parseLoop ma mdh ma.samples 0 0 []) with
  | none =>
    rw [hlk] at hgetD
    simp at hgetD
  | some bt =>
    rw [hlk] at hgetD
    simp only [Option.some_bind] at hgetD
    rw [Prod.mk.injEq] at hgetD
    exact ⟨bt, rfl, hgetD.1, hgetD.2⟩

/-! ### Error handling: per-track aborts and the unreachable decode failure -/

/-- Claim C9: a source track whose loaded clip streams do not all share one
checksum, or whose shared checksum is absent from the hierarchy index, is
abandoned with the printed-diagnostic early return (`aborted`, not the
exception-modelling `crashed`), produces no output document, and the
remaining source tracks are processed exactly as they would be on their
own. -/
theorem c9_track_isolation (pre post : List (List ModelAnimation))
    (mas : List ModelAnimation) (mdh_dict : List (Nat × MdhDict))
    (hfail : checksumsOK mas = false ∨
      ∃ (m0 : ModelAnimation) (rest : List ModelAnimation),
        mas = m0 :: rest ∧ lookupA m0.checksum mdh_dict = none) :
    convert_anis mas mdh_dict = ConvOut.aborted ∧
    processTracks mdh_dict (pre ++ mas :: post) =
      processTracks mdh_dict pre ++ ConvOut.aborted :: processTracks mdh_dict post := by
  have habort : convert_anis mas mdh_dict = ConvOut.aborted := by
    rcases hfail with hf | ⟨m0, rest, hmas, hlk⟩
    · cases mas with
      | nil => rfl
      | cons m0 rest => simp [convert_anis, hf]
    · subst hmas
      cases hck : checksumsOK (m0 :: rest) with
      | false => simp [convert_anis, hck]
      | true => simp [convert_anis, hck, hlk]
  refine ⟨habort, ?_⟩
  unfold processTracks
  rw [List.map_append, List.map_cons, habort]

theorem buildMdhIndex_aux :
    ∀ (mdhs : List MdhDict) (m : List (Nat × MdhDict)),
      (∀ (c0 : Nat) (r0 : MdhDict), lookupA c0 m = some r0 → r0.checksum = c0) →
      ∀ (c0 : Nat) (r0 : MdhDict),
        lookupA c0 (mdhs.foldl (fun acc d => updA d.checksum d acc) m) = some r0 →
        r0.checksum = c0
  | [], _, hm => hm
  | d :: mdhs, m, hm => by
    rw [List.foldl_cons]
    refine buildMdhIndex_aux mdhs (updA d.checksum d m) ?_
    intro c0 r0 h0
    by_cases he : c0 = d.checksum
    · subst he
      rw [lookupA_updA_self] at h0
      cases h0
      rfl
    · rw [lookupA_updA_ne _ _ _ _ he] at h0
      exact hm c0 r0 h0

theorem buildMdhIndex_checksum (mdhs : List MdhDict) (c : Nat) (r : MdhDict)
    (h : lookupA c (buildMdhIndex mdhs) = some r) : r.checksum = c := by
  refine buildMdhIndex_aux mdhs [] ?_ c r h
  intro c0 r0 h0
  simp [lookupA] at h0

theorem mergeLoopNE_ne_none (mdh : MdhDict) :
    ∀ (rest : List ModelAnimation) (acc : FramesM) (ma : ModelAnimation),
      parse_man ma mdh ≠ none → (∀ m ∈ rest, parse_man m mdh ≠ none) →
      mergeLoopNE mdh acc ma rest ≠ none
  | [], acc, ma, hma, _ => by
    unfold mergeLoopNE
    cases hp : parse_man ma mdh with
    | none => exact absurd hp hma
    | some ad => simp
  | m :: ms, acc, ma, hma, hrest => by
    unfold mergeLoopNE
    cases hp : parse_man ma mdh with
    | none => exact absurd hp hma
    | some ad =>
      exact mergeLoopNE_ne_none mdh ms (mergeClipFrames acc ad.frames) m
        (hrest m (List.mem_cons_self m ms))
        (fun x hx => hrest x (List.mem_cons_of_mem m hx))

/-- Claim C10: when the merge's checksum validation succeeded (the loaded
streams are nonempty and share one checksum, and that checksum is found in
the index built by `convert` from the hierarchy records), `parse_man` never
returns its `None` (checksum-mismatch) result inside the merge loop, so the
merge never dereferences an absent decode result (`convert_anis` cannot reach
the `crashed` outcome that models the `TypeError` on `man_data['frames']`). -/
theorem c10_decode_never_fails (mdhs : List MdhDict) (m0 : ModelAnimation)
    (rest : List ModelAnimation) (mdh : MdhDict)
    (hsame : checksumsOK (m0 :: rest) = true)
    (hfound : lookupA m0.checksum (buildMdhIndex mdhs) = some mdh) :
    (∀ ma ∈ m0 :: rest, parse_man ma mdh ≠ none) ∧
    convert_anis (m0 :: rest) (buildMdhIndex mdhs) ≠ ConvOut.crashed := by
  have hcs : mdh.checksum = m0.checksum := buildMdhIndex_checksum mdhs _ mdh hfound
  have hall : ∀ ma ∈ m0 :: rest, ma.checksum = mdh.checksum := by
    intro ma hma
    rcases List.mem_cons.mp hma with he | hm
    · rw [he, hcs]
    · have h1 := List.all_eq_true.mp (by unfold checksumsOK at hsame; exact hsame) ma hm
      have h2 : ma.checksum = m0.checksum := of_decide_eq_true h1
      rw [h2, hcs]
  have hpm : ∀ ma ∈ m0 :: rest, parse_man ma mdh ≠ none := by
    intro ma hma
    unfold parse_man
    rw [if_neg]
    · simp
    · have := hall ma hma
      omega
  refine ⟨hpm, ?_⟩
  have hne := mergeLoopNE_ne_none mdh rest [] m0
    (hpm m0 (List.mem_cons_self m0 rest))
    (fun m hm => hpm m (List.mem_cons_of_mem m0 hm))
  cases hml : mergeLoopNE mdh [] m0 rest with
  | none => exact absurd hml hne
  | some p =>
    obtain ⟨f, l⟩ := p
    simp [convert_anis, hsame, hfound, hml]

/-! ### Concrete clip streams used to evaluate the merge loop -/

def sampleA : Sample := ⟨1, 2, 3, 4, 5, 6, 7⟩

def sampleB : Sample := ⟨10, 20, 30, 40, 50, 60, 70⟩

def sampleC : Sample := ⟨100, 200, 300, 400, 500, 600, 700⟩

def mdhBip : MdhDict := ⟨7, [⟨"BIP01"⟩]⟩

def mdhIndexBip : List (Nat × MdhDict) := buildMdhIndex [mdhBip]

/-- A one-sample clip stream (checksum 7, one bone). -/
def maA : ModelAnimation := ⟨7, 1, 25, 25, 1, [0], [sampleA]⟩

/-- A one-sample clip stream with different header metadata. -/
def maB : ModelAnimation := ⟨7, 1, 30, 30, 2, [0], [sampleB]⟩

/-- A two-sample clip stream (flat sample indices 0 and 1). -/
def maA2 : ModelAnimation := ⟨7, 2, 25, 25, 1, [0], [sampleA, sampleB]⟩

/-- A clip stream whose checksum does not match `mdhBip`. -/
def maBad : ModelAnimation := ⟨8, 1, 25, 25, 1, [0], [sampleA]⟩

/-! ### Claims about the Track Merger (evaluating the code at concrete input) -/

/-- Claim C1 (code bug, evaluated at the failing input): merging the single
clip `maA` does not reproduce `decode(maA)`.  The merged header fields do
equal `maA`'s metadata, but because the merge loop iterates `for v in values`
and assigns every component to the same `[frame]` key, the merged entry at
key 0 is the last scalar component of each decoded vector (3 for the
translation, 7 for the rotation) instead of the decoded per-component-rounded
vectors `[1, 2, 3]` and `[4, 5, 6, 7]` that `parse_man` produced. -/
theorem c1_single_clip_merge_truncates :
    (convert_anis [maA] mdhIndexBip).mergedAnimation =
      some { checksum := 7, frame_count := 1, fps := 25, fps_source := 25, layer := 1,
             source_script := [],
             frames := [("BIP01", ⟨[(0, 3)], [(0, 7)]⟩)] } ∧
    (parse_man maA mdhBip).map AnimationData.frames =
      some [("BIP01", ⟨[(0, [1, 2, 3])], [(0, [4, 5, 6, 7])]⟩)] :=
  ⟨by with_unfolding_all rfl, by with_unfolding_all rfl⟩

/-- Claim C2 (code bug, evaluated at the failing input): the document
serialised for the bake collaborator is `man_data` — the decode of the clip
processed last — not `man_data_merged`.  For the two clips `maA2` (samples at
keys 0 and 1) and `maB` (sample at key 0), the saved document equals
`parse_man maB` exactly (it has no `hierarchy` and no key 1), while the
merged structure built from both clips does hold an entry at key 1. -/
theorem c2_saved_doc_is_last_clip_decode :
    (convert_anis [maA2, maB] mdhIndexBip).savedData =
      some { checksum := 7, frame_count := 1, fps := 30, fps_source := 30, layer := 2,
             source_script := [],
             frames := [("BIP01", ⟨[(0, [10, 20, 30])], [(0, [40, 50, 60, 70])]⟩)] } ∧
    parse_man maB mdhBip =
      some { checksum := 7, frame_count := 1, fps := 30, fps_source := 30, layer := 2,
             source_script := [],
             frames := [("BIP01", ⟨[(0, [10, 20, 30])], [(0, [40, 50, 60, 70])]⟩)] } ∧
    (convert_anis [maA2, maB] mdhIndexBip).mergedFrames =
      some [("BIP01", ⟨[(0, 30), (1, 30)], [(0, 70), (1, 70)]⟩)] :=
  ⟨by with_unfolding_all rfl, by with_unfolding_all rfl, by with_unfolding_all rfl⟩

/-- Claim C3 (code bug, evaluated at the failing input): when two decoded
clips collide on the same `(bone, track, sampleIndex)` key, the later-folded
clip does overwrite the earlier one at that key and keys are not rebased by
`first_frame`, but the value stored is only the last component of the later
clip's decoded entry: folding `maB` then `maA` leaves 3 at key 0 of the
translation track (the last component of `maA`'s entry `[1, 2, 3]`), not the
entry itself, and nothing of `maB`'s entry `[10, 20, 30]` survives. -/
theorem c3_overwrite_stores_last_component :
    (convert_anis [maB, maA] mdhIndexBip).mergedFrames =
      some [("BIP01", ⟨[(0, 3)], [(0, 7)]⟩)] ∧
    (parse_man maB mdhBip).map AnimationData.frames =
      some [("BIP01", ⟨[(0, [10, 20, 30])], [(0, [40, 50, 60, 70])]⟩)] ∧
    (parse_man maA mdhBip).map AnimationData.frames =
      some [("BIP01", ⟨[(0, [1, 2, 3])], [(0, [4, 5, 6, 7])]⟩)] :=
  ⟨by with_unfolding_all rfl, by with_unfolding_all rfl, by with_unfolding_all rfl⟩

/-! ### Witnesses: each hypothesis-bearing claim theorem applied at a
concrete input -/

def cA : Ani := ⟨"A", 0, 9, 25, 0⟩

def cB : Ani := ⟨"B", 10, 19, 25, 0⟩

theorem c4_best_combination_witness :
    searchLoop [cA, cB] ∈ passingCombos [cA, cB] ∧
    (∀ c ∈ passingCombos [cA, cB], c.length ≤ (searchLoop [cA, cB]).length) ∧
    (passingCombos [cA, cB]).find?
        (fun c => decide ((searchLoop [cA, cB]).length ≤ c.length))
      = some (searchLoop [cA, cB]) ∧
    chosenBeforeCover [cA, cB] = searchLoop [cA, cB] :=
  c4_best_combination [cA, cB] (by decide) (by decide)

def cOv1 : Ani := ⟨"O1", 0, 9, 25, 0⟩

def cOv2 : Ani := ⟨"O2", 0, 9, 12, 0⟩

theorem c5_largest_span_fallback_witness :
    ∃ c : Ani,
      chosenBeforeCover [cOv1, cOv2] = [c] ∧ c ∈ [cOv1, cOv2] ∧
      (∀ a ∈ [cOv1, cOv2], span a ≤ span c) ∧
      (([cOv1, cOv2].filter (fun a => decide (span a = maxSpanOf [cOv1, cOv2]))).filter
          (fun a => decide (a.fps = 25 ∧ a.speed = 0)) = [] →
        ([cOv1, cOv2].filter
          (fun a => decide (span a = maxSpanOf [cOv1, cOv2]))).head? = some c) ∧
      (∀ (c0 : Ani) (l : List Ani),
        (([cOv1, cOv2].filter (fun a => decide (span a = maxSpanOf [cOv1, cOv2]))).filter
            (fun a => decide (a.fps = 25 ∧ a.speed = 0)) = c0 :: l → c = c0)) :=
  c5_largest_span_fallback [cOv1, cOv2] (by decide) (by decide)

def cG1 : Ani := ⟨"G1", 0, 9, 25, 0⟩

def cG2 : Ani := ⟨"G2", 15, 24, 12, 0⟩

theorem c6_no_full_cover_witness :
    find_best_anis_combo [cG1, cG2] = [cG1, cG2] :=
  c6_no_full_cover [cG1, cG2] (by decide) (by decide)

def mdhTwo : MdhDict := ⟨9, [⟨"BIP01"⟩, ⟨"BIP02"⟩]⟩

/-- Three samples over a two-entry bone cycle: flat index 2 wraps back to
bone 0. -/
def maCyc : ModelAnimation := ⟨9, 1, 25, 25, 0, [0, 1], [sampleA, sampleB, sampleC]⟩

theorem c8_decoder_witness :
    ∃ ad : AnimationData, parse_man maCyc mdhTwo = some ad ∧
      ∃ bt : BoneTracks,
        lookupA (boneNameAt maCyc mdhTwo (2 % maCyc.node_indices.length)) ad.frames
          = some bt ∧
        lookupA 2 bt.translation =
          some [rf (maCyc.samples.getD 2 default).px, rf (maCyc.samples.getD 2 default).py,
            rf (maCyc.samples.getD 2 default).pz] ∧
        lookupA 2 bt.rotation =
          some [rf (maCyc.samples.getD 2 default).rx, rf (maCyc.samples.getD 2 default).ry,
            rf (maCyc.samples.getD 2 default).rz, rf (maCyc.samples.getD 2 default).rw] :=
  c8_decoder maCyc mdhTwo rfl (by decide) (by decide) 2 (by decide)

theorem c9_track_isolation_witness :
    convert_anis [maA, maBad] mdhIndexBip = ConvOut.aborted ∧
    processTracks mdhIndexBip ([[maA]] ++ [maA, maBad] :: [[maB]]) =
      processTracks mdhIndexBip [[maA]] ++
        ConvOut.aborted :: processTracks mdhIndexBip [[maB]] :=
  c9_track_isolation [[maA]] [[maB]] [maA, maBad] mdhIndexBip (Or.inl (by decide))

theorem c10_decode_never_fails_witness :
    (∀ ma ∈ [maA, maA2], parse_man ma mdhBip ≠ none) ∧
    convert_anis [maA, maA2] (buildMdhIndex [mdhBip]) ≠ ConvOut.crashed :=
  c10_decode_never_fails [mdhBip] maA [maA2] mdhBip (by decide)
    (by with_unfolding_all rfl)

end GothicAnims
